import Mathlib

/-!
Verification of the chain-graph core of the obsidian-threads plugin.

The in-memory relationship graph is a graphology directed graph whose nodes
are document paths (with a creation-time attribute) and whose edges are
parent references (child → parent, labeled with the frontmatter field name).
Graphology guarantees insertion-order iteration for nodes and edges, so the
graph is embedded as a node list and an edge list; `mapOutEdges` /
`mapInEdges` over a node become list filters on the edge list.

Embedded source files:
* `ChainDetector` (queries `isInChain`, `getPrevNotes`, `getNextNotes`,
  `getFullChainBackward`, `getFullChainForward`, `getCompleteChain`),
* `BranchDetector` (`buildRenderingChain`, `getOldestNote`),
* `ChainHealer.healAfterDelete` / `updateNodePrevLinks`,
* `GraphService.handleDelete`.

The TypeScript while-loops of the chain walks are embedded as a fuel-indexed
recursion `walkAux`; `edges.length + 1` units of fuel are provably enough
(each iteration adds a previously unvisited edge endpoint to the visited
set), which is established by the fuel-stability theorems below.
-/

/-- Per-node attributes. `createdTime` is `none` for placeholder nodes whose
document has not been processed yet; readers in the source use
`attrs.createdTime || 0`, which maps absence to `0`. -/
structure ChainNodeAttributes where
  createdTime : Option Nat
deriving DecidableEq, Repr

/-- A parent-reference edge: `source` is the child document, `target` the
referenced parent, `field` the frontmatter field the reference came from. -/
structure ChainEdge where
  source : String
  target : String
  field : String
deriving DecidableEq, Repr

/-- The chain graph: node list (path with attributes) and edge list, both in
insertion order, mirroring graphology's iteration-order guarantee. -/
structure ChainGraph where
  nodes : List (String × ChainNodeAttributes)
  edges : List ChainEdge
deriving DecidableEq, Repr

/-- Node existence test, `graph.hasNode(path)`. -/
def hasNode (g : ChainGraph) (p : String) : Bool :=
  g.nodes.any (fun n => n.1 == p)

/-- Outgoing edges of a node, in insertion order (`graph.mapOutEdges`). -/
def outEdges (g : ChainGraph) (p : String) : List ChainEdge :=
  g.edges.filter (fun e => e.source == p)

/-- Incoming edges of a node, in insertion order (`graph.mapInEdges`). -/
def inEdges (g : ChainGraph) (p : String) : List ChainEdge :=
  g.edges.filter (fun e => e.target == p)

/-- Creation time of a node, `graph.getNodeAttributes(path).createdTime || 0` as used by
`getOldestNote`: a missing attribute reads as `0`.  (Graphology would throw
for an absent node; the callers below only pass endpoints of graph edges,
which graphology guarantees are nodes, so the absent-node branch is a total
default that is never observed through the embedded API.) -/
def nodeCreatedTime (g : ChainGraph) (p : String) : Nat :=
  match g.nodes.find? (fun n => n.1 == p) with
  | some n => n.2.createdTime.getD 0
  | none => 0

/-- Source `isInChain` from ChainDetector: a note is in a chain iff it is a graph
node with at least one outgoing (prev) edge. -/
def isInChain (g : ChainGraph) (notePath : String) : Bool :=
  if hasNode g notePath then decide (0 < (outEdges g notePath).length) else false

/-- Source `getPrevNotes` from ChainDetector: targets of the note's outgoing edges;
`[]` when the note is not a node of the graph. -/
def getPrevNotes (g : ChainGraph) (notePath : String) : List String :=
  if hasNode g notePath then (outEdges g notePath).map (fun e => e.target) else []

/-- Source `getNextNotes` from ChainDetector: sources of the incoming edges whose
field is `"prev"`; `[]` when the note is not a node of the graph. -/
def getNextNotes (g : ChainGraph) (notePath : String) : List String :=
  if hasNode g notePath then
    ((inEdges g notePath).filter (fun e => e.field == "prev")).map (fun e => e.source)
  else []

/-- One generic fuel-indexed walk step shared by the three chain loops of the
source (`getFullChainBackward`, `getFullChainForward`, and the forward loop
of `buildRenderingChain`): `f` produces the next note of the walk, the walk
stops when `f` yields nothing or the candidate was already visited, and each
accepted note is prepended to the accumulator and added to the visited set,
exactly as the `while (true)` loops with their `Set`-based cycle guard do. -/
def walkAux (f : String → Option String) : Nat → String → List String → List String → List String
  | 0, _, _, acc => acc
  | fuel + 1, current, visited, acc =>
    match f current with
    | none => acc
    | some nxt =>
      if nxt ∈ visited then acc
      else walkAux f fuel nxt (nxt :: visited) (nxt :: acc)

/-- The backward step of `getFullChainBackward`: `prevNotes[0]`, the first
outgoing edge's target ("Take first if multiple"). -/
def backStep (g : ChainGraph) (c : String) : Option String :=
  (getPrevNotes g c).head?

/-- The forward step of `getFullChainForward`: `nextNotes[0]`, the first
incoming `"prev"` edge's source ("Take first if multiple"). -/
def fwdStep (g : ChainGraph) (c : String) : Option String :=
  (getNextNotes g c).head?

/-- Source `getFullChainBackward` with explicit fuel; the chain starts as
`[startPath]`, ancestors are prepended (`unshift`), visited starts as
`{startPath}`. -/
def getFullChainBackwardF (g : ChainGraph) (fuel : Nat) (startPath : String) : List String :=
  walkAux (backStep g) fuel startPath [startPath] [startPath]

/-- Source `getFullChainBackward` from ChainDetector.  `edges.length + 1` fuel is
enough: every loop iteration consumes a fresh edge target (see the
fuel-stability theorem for claim C3). -/
def getFullChainBackward (g : ChainGraph) (startPath : String) : List String :=
  getFullChainBackwardF g (g.edges.length + 1) startPath

/-- Source `getFullChainForward` with explicit fuel; the source pushes to the end of
the chain, so the prepend-accumulator is reversed at the end. -/
def getFullChainForwardF (g : ChainGraph) (fuel : Nat) (startPath : String) : List String :=
  (walkAux (fwdStep g) fuel startPath [startPath] [startPath]).reverse

/-- Source `getFullChainForward` from ChainDetector. -/
def getFullChainForward (g : ChainGraph) (startPath : String) : List String :=
  getFullChainForwardF g (g.edges.length + 1) startPath

/-- Source `getCompleteChain` from ChainDetector:
`[...backward.slice(0, -1), ...forward]`. -/
def getCompleteChain (g : ChainGraph) (notePath : String) : List String :=
  (getFullChainBackward g notePath).dropLast ++ getFullChainForward g notePath

/-- The spec-level backward chain `prevChainOf(id)`: the ordered ancestor
sequence nearest-first.  `getFullChainBackward` returns
`[farthest ancestor, …, nearest ancestor, id]`, so the spec view drops the
focal note and reverses. -/
def prevChainOf (g : ChainGraph) (notePath : String) : List String :=
  ((getFullChainBackward g notePath).dropLast).reverse

/-- The spec-level forward chain `nextChainOf(id)`: the descendant sequence
nearest-first.  `getFullChainForward` returns `[id, …]`, so the spec view
drops the focal note. -/
def nextChainOf (g : ChainGraph) (notePath : String) : List String :=
  (getFullChainForward g notePath).drop 1

/-- Source `getOldestNote` from BranchDetector: sort the candidate paths ascending
by `createdTime` (JavaScript's `Array.prototype.sort` is stable, so the
first element of the sorted array is the leftmost candidate with minimal
creation time) and take the first; `null` on an empty list.  The fold below
computes exactly that leftmost minimum: it replaces the running best only on
a strictly smaller key. -/
def getOldestNote (g : ChainGraph) (paths : List String) : Option String :=
  match paths with
  | [] => none
  | [p] => some p
  | p :: q :: rest =>
    some ((q :: rest).foldl
      (fun best cur => if nodeCreatedTime g cur < nodeCreatedTime g best then cur else best) p)

/-- The forward step of `buildRenderingChain`: the oldest (by creation time)
of the notes whose `prev` points at the current note. -/
def fwdStepOldest (g : ChainGraph) (c : String) : Option String :=
  getOldestNote g (getNextNotes g c)

/-- Segment kinds of the rendering chain. -/
inductive SegmentType where
  | note
  | createButton
deriving DecidableEq, Repr

/-- A rendering-chain segment (`ChainSegment` in BranchDetector). -/
structure ChainSegment where
  type : SegmentType
  path : String
deriving DecidableEq, Repr

/-- Source `buildRenderingChain` from BranchDetector.  The backward loop starts with
an empty visited set (unlike `getFullChainBackward`), the active note is then
added to the visited set, and the forward loop steps through
`getOldestNote(getNextNotes(current))`; a create-button segment pointing at
the last rendered note closes the chain. -/
def buildRenderingChain (g : ChainGraph) (activeNotePath : String) : List ChainSegment :=
  let fuel := g.edges.length + 1
  let backwardChain := walkAux (backStep g) fuel activeNotePath [] []
  let fwd := (walkAux (fwdStepOldest g) fuel activeNotePath
      (activeNotePath :: backwardChain) []).reverse
  let lastNotePath := fwd.getLast?.getD activeNotePath
  backwardChain.map (fun p => ChainSegment.mk SegmentType.note p)
    ++ [ChainSegment.mk SegmentType.note activeNotePath]
    ++ fwd.map (fun p => ChainSegment.mk SegmentType.note p)
    ++ [ChainSegment.mk SegmentType.createButton lastNotePath]

/-- First-occurrence deduplication with an accumulator of already-seen
elements: the order-preserving semantics of `[...new Set(list)]`. -/
def dedupFirstAux : List String → List String → List String
  | _, [] => []
  | seen, x :: xs =>
    if x ∈ seen then dedupFirstAux seen xs
    else x :: dedupFirstAux (x :: seen) xs

/-- First-occurrence deduplication, `[...new Set(list)]`: drop every repetition after an element's first
occurrence, keeping first-occurrence order. -/
def dedupFirst (l : List String) : List String :=
  dedupFirstAux [] l

/-- The children of a node: sources of its incoming edges, in insertion
order (the healer's `inEdges` mapping). -/
def childrenSources (g : ChainGraph) (p : String) : List String :=
  (inEdges g p).map (fun e => e.source)

/-- The parents of a node: targets of its outgoing edges, in insertion order
(the healer's `outEdges` / `currentPrevLinks` mapping). -/
def parentTargets (g : ChainGraph) (p : String) : List String :=
  (outEdges g p).map (fun e => e.target)

/-- The `uniqueLinks` computation of `ChainHealer.updateNodePrevLinks`: the
node's current prev targets with the deleted path filtered out, the deleted
node's own targets appended, deduplicated first-occurrence-first.  (The
source then renders these paths as basenames for the frontmatter write — an
external-identifier conversion performed against the vault, outside the
graph core.) -/
def newPrevLinks (g : ChainGraph) (nodePath deletedPath : String)
    (newTargets : List String) : List String :=
  dedupFirst (((parentTargets g nodePath).filter (fun t => t ≠ deletedPath)) ++ newTargets)

/-- Source `ChainHealer.healAfterDelete` as the list of frontmatter-rewrite
instructions it emits, one `(documentId, newParentPaths)` pair per processed
child.  `fileExists` models the external vault lookup
`getAbstractFileByPath`: a child whose file is gone is skipped without an
instruction, exactly as the early return in `updateNodePrevLinks`.  A
`deletedPath` with no node yields no instructions. -/
def healAfterDelete (fileExists : String → Bool) (g : ChainGraph)
    (deletedPath : String) : List (String × List String) :=
  if hasNode g deletedPath then
    let inSources := childrenSources g deletedPath
    let outTargets := parentTargets g deletedPath
    (inSources.filter fileExists).map
      (fun src => (src, newPrevLinks g src deletedPath outTargets))
  else []

/-- A graph read returning whether a node exists, threading the graph state
through unchanged — the shape of every graph call `healAfterDelete` makes. -/
def hasNodeOp (g : ChainGraph) (p : String) : ChainGraph × Bool :=
  (g, hasNode g p)

/-- State-threaded read of a node's incoming-edge sources. -/
def inSourcesOp (g : ChainGraph) (p : String) : ChainGraph × List String :=
  (g, childrenSources g p)

/-- State-threaded read of a node's outgoing-edge targets. -/
def outTargetsOp (g : ChainGraph) (p : String) : ChainGraph × List String :=
  (g, parentTargets g p)

/-- The healer's per-child loop (`for (const sourcePath of inEdges) await
this.updateNodePrevLinks(...)`) with the graph state threaded through every
graph read it performs. -/
def healLoop (fileExists : String → Bool) (d : String) (outTargets : List String) :
    ChainGraph → List String → ChainGraph × List (String × List String)
  | g, [] => (g, [])
  | g, src :: rest =>
    if fileExists src then
      let r1 := outTargetsOp g src
      let instr := (src, dedupFirst ((r1.2.filter (fun t => t ≠ d)) ++ outTargets))
      let r2 := healLoop fileExists d outTargets r1.1 rest
      (r2.1, instr :: r2.2)
    else healLoop fileExists d outTargets g rest

/-- Source `ChainHealer.healAfterDelete` with the graph state made explicit: every
graph operation the method performs is threaded as a state transformer, so
the returned graph is whatever those operations leave behind.  The method
only ever calls `hasNode`, `mapInEdges` and `mapOutEdges`. -/
def healAfterDeleteSt (fileExists : String → Bool) (g : ChainGraph)
    (deletedPath : String) : ChainGraph × List (String × List String) :=
  let r0 := hasNodeOp g deletedPath
  if r0.2 then
    let r1 := inSourcesOp r0.1 deletedPath
    let r2 := outTargetsOp r1.1 deletedPath
    healLoop fileExists deletedPath r2.2 r2.1 r1.2
  else (r0.1, [])

/-- Modelled from the spec: the graph store's `removeNode` (`handle_delete`
on the `ChainGraph` class, whose implementation file is not in the
repository snapshot): "removes the node and all edges touching it (both
directions); fails silently (no-op) if absent". -/
def removeNode (g : ChainGraph) (p : String) : ChainGraph :=
  { nodes := g.nodes.filter (fun n => n.1 ≠ p)
    edges := g.edges.filter (fun e => e.source ≠ p ∧ e.target ≠ p) }

/-- Source `GraphService.handleDelete`: first let the healer compute and emit its
rewrite instructions against the still-intact graph, then remove the deleted
node (and its edges) from the graph. -/
def handleDelete (fileExists : String → Bool) (g : ChainGraph)
    (deletedPath : String) : ChainGraph × List (String × List String) :=
  let healed := healAfterDeleteSt fileExists g deletedPath
  (removeNode healed.1 deletedPath, healed.2)

/-- Well-formed graph: no parallel edges between the same ordered pair of
endpoints — graphology's default (non-multi) graph guarantee, and the
spec's `setParentEdges` keying of edges by endpoint identifiers. -/
def wfGraph (g : ChainGraph) : Prop :=
  (g.edges.map (fun e => (e.source, e.target))).Nodup

/-! ## Concrete graphs used by witnesses and counterexamples -/

/-- Convenience constructor for a node entry with a known creation time. -/
def mkNode (p : String) (t : Nat) : String × ChainNodeAttributes :=
  (p, ⟨some t⟩)

/-- Two notes referencing each other as parent: the malformed reference loop
A→B→A of the cycle-safety property. -/
def cycleGraph : ChainGraph :=
  ⟨[mkNode "A" 1, mkNode "B" 2], [⟨"A", "B", "prev"⟩, ⟨"B", "A", "prev"⟩]⟩

/-- A branch at parent P: Y's edge to P was inserted before X's, but X is the
older note (creation time 1 < 2). -/
def branchGraph : ChainGraph :=
  ⟨[mkNode "P" 0, mkNode "X" 1, mkNode "Y" 2],
    [⟨"Y", "P", "prev"⟩, ⟨"X", "P", "prev"⟩]⟩

/-- The healing example with two children: X→B, Y→B and B→C. -/
def healExampleGraph : ChainGraph :=
  ⟨[mkNode "X" 1, mkNode "Y" 2, mkNode "B" 3, mkNode "C" 4],
    [⟨"X", "B", "prev"⟩, ⟨"Y", "B", "prev"⟩, ⟨"B", "C", "prev"⟩]⟩

/-- A two-note chain D→P. -/
def pairGraph : ChainGraph :=
  ⟨[mkNode "D" 1, mkNode "P" 2], [⟨"D", "P", "prev"⟩]⟩

/-- A single note referencing itself as its own parent. -/
def selfLoopGraph : ChainGraph :=
  ⟨[mkNode "S" 1], [⟨"S", "S", "prev"⟩]⟩

/-! ## Walk lemmas -/

/-- A walk only prepends to its accumulator, and everything it prepends was
unvisited when the walk started. -/
lemma walkAux_suffix (f : String → Option String) :
    ∀ (n : Nat) (c : String) (visited acc : List String),
      ∃ l, walkAux f n c visited acc = l ++ acc ∧ ∀ x ∈ l, x ∉ visited := by
  intro n
  induction n with
  | zero =>
    intro c visited acc
    exact ⟨[], rfl, by simp⟩
  | succ m ih =>
    intro c visited acc
    cases hfc : f c with
    | none => exact ⟨[], by simp [walkAux, hfc], by simp⟩
    | some nxt =>
      by_cases hmem : nxt ∈ visited
      · exact ⟨[], by simp [walkAux, hfc, hmem], by simp⟩
      · obtain ⟨l, hl, hvis⟩ := ih nxt (nxt :: visited) (nxt :: acc)
        refine ⟨l ++ [nxt], ?_, ?_⟩
        · simp [walkAux, hfc, hmem, hl]
        · intro x hx
          rcases List.mem_append.mp hx with hx | hx
          · have := hvis x hx
            simp only [List.mem_cons, not_or] at this
            exact this.2
          · simp only [List.mem_singleton] at hx
            subst hx
            exact hmem

/-- Counting with a pointwise-stronger predicate that provably loses one
witness is strictly smaller. -/
lemma countP_lt_of_witness (q' q : String → Bool)
    (himp : ∀ x, q' x = true → q x = true) :
    ∀ (l : List String) (p : String), p ∈ l → q p = true → q' p = false →
      l.countP q' < l.countP q := by
  intro l
  induction l with
  | nil => intro p hp; simp at hp
  | cons x xs ih =>
    intro p hp hq hq'
    have hmono : ∀ (m : List String), m.countP q' ≤ m.countP q := by
      intro m
      induction m with
      | nil => simp
      | cons y ys ihm =>
        rw [List.countP_cons, List.countP_cons]
        by_cases hy : q' y = true
        · simp [hy, himp y hy]
          omega
        · simp only [Bool.not_eq_true] at hy
          simp [hy]
          omega
    rcases List.mem_cons.mp hp with hpx | hpxs
    · subst hpx
      have h1 : xs.countP q' ≤ xs.countP q := hmono xs
      rw [List.countP_cons, List.countP_cons, hq, hq']
      have e1 : (if (true : Bool) = true then 1 else 0) = 1 := rfl
      have e2 : (if (false : Bool) = true then 1 else 0) = 0 := rfl
      rw [e1, e2]
      omega
    · have hlt := ih p hpxs hq hq'
      rw [List.countP_cons, List.countP_cons]
      have hc : (if q' x = true then 1 else 0) ≤ (if q x = true then 1 else 0) := by
        by_cases hx : q' x = true
        · simp [hx, himp x hx]
        · simp [hx]
      omega

/-- Fuel stability: once the fuel exceeds the number of candidate notes not
yet visited, adding more fuel does not change a walk's result — the source's
`while (true)` loop has already hit a `break` by then, because every
iteration moves a fresh candidate into the visited set. -/
lemma walkAux_stable (f : String → Option String) (cand : List String)
    (hf : ∀ c p, f c = some p → p ∈ cand) :
    ∀ (fuel k : Nat) (current : String) (visited acc : List String),
      cand.countP (fun x => decide (x ∉ visited)) < fuel →
      walkAux f (fuel + k) current visited acc = walkAux f fuel current visited acc := by
  intro fuel
  induction fuel with
  | zero => intro k current visited acc h; omega
  | succ m ih =>
    intro k current visited acc h
    have hstep : m + 1 + k = (m + k) + 1 := by omega
    rw [hstep]
    cases hfc : f current with
    | none => simp [walkAux, hfc]
    | some nxt =>
      by_cases hmem : nxt ∈ visited
      · simp [walkAux, hfc, hmem]
      · simp only [walkAux, hfc, hmem, if_false, if_neg hmem]
        apply ih
        have hcand : nxt ∈ cand := hf current nxt hfc
        have hdec : cand.countP (fun x => decide (x ∉ (nxt :: visited))) <
            cand.countP (fun x => decide (x ∉ visited)) := by
          refine countP_lt_of_witness _ _ ?_ cand nxt hcand ?_ ?_
          · intro x hx
            simp only [decide_eq_true_eq, List.mem_cons, not_or] at hx
            simp [hx.2]
          · simp [hmem]
          · simp
        omega

/-- Elements of `dedupFirstAux seen l` are exactly the elements of `l` that
are not in `seen`. -/
lemma mem_dedupFirstAux :
    ∀ (l seen : List String) (x : String),
      x ∈ dedupFirstAux seen l ↔ x ∈ l ∧ x ∉ seen := by
  intro l
  induction l with
  | nil => intro seen x; simp [dedupFirstAux]
  | cons y ys ih =>
    intro seen x
    by_cases hy : y ∈ seen
    · rw [dedupFirstAux, if_pos hy, ih]
      constructor
      · rintro ⟨hx, hxs⟩
        exact ⟨List.mem_cons_of_mem _ hx, hxs⟩
      · rintro ⟨hx, hxs⟩
        rcases List.mem_cons.mp hx with rfl | hx
        · exact absurd hy hxs
        · exact ⟨hx, hxs⟩
    · rw [dedupFirstAux, if_neg hy]
      simp only [List.mem_cons, ih]
      constructor
      · rintro (rfl | ⟨hx, hxs⟩)
        · exact ⟨Or.inl rfl, hy⟩
        · simp only [List.mem_cons, not_or] at hxs
          exact ⟨Or.inr hx, hxs.2⟩
      · rintro ⟨rfl | hx, hxs⟩
        · exact Or.inl rfl
        · by_cases hxy : x = y
          · exact Or.inl hxy
          · exact Or.inr ⟨hx, by simp [hxy, hxs]⟩

/-- First-occurrence deduplication produces a duplicate-free list. -/
lemma dedupFirstAux_nodup :
    ∀ (l seen : List String), (dedupFirstAux seen l).Nodup := by
  intro l
  induction l with
  | nil => intro seen; simp [dedupFirstAux]
  | cons y ys ih =>
    intro seen
    by_cases hy : y ∈ seen
    · rw [dedupFirstAux, if_pos hy]; exact ih seen
    · rw [dedupFirstAux, if_neg hy]
      refine List.Nodup.cons ?_ (ih (y :: seen))
      intro hmem
      have := (mem_dedupFirstAux ys (y :: seen) y).mp hmem
      simp at this

/-- Membership in `dedupFirst` is membership in the original list. -/
lemma mem_dedupFirst (l : List String) (x : String) :
    x ∈ dedupFirst l ↔ x ∈ l := by
  rw [dedupFirst, mem_dedupFirstAux]
  simp

/-! ## Healer lemmas -/

/-- The healer's per-child loop only performs graph reads: the graph it
returns is the graph it was given, and the instructions are one
`newPrevLinks` rewrite per surviving child. -/
lemma healLoop_eq (fe : String → Bool) (d : String) (outs : List String) :
    ∀ (g : ChainGraph) (l : List String),
      healLoop fe d outs g l =
        (g, (l.filter fe).map (fun src => (src, newPrevLinks g src d outs))) := by
  intro g l
  induction l with
  | nil => simp [healLoop]
  | cons src rest ih =>
    by_cases hfe : fe src = true
    · simp [healLoop, hfe, outTargetsOp, ih, newPrevLinks]
    · simp only [Bool.not_eq_true] at hfe
      simp [healLoop, hfe, ih]

/-- The state-threaded healer leaves the graph exactly as it found it and
computes the same instruction list as the pure description. -/
lemma healAfterDeleteSt_eq (fe : String → Bool) (g : ChainGraph) (d : String) :
    healAfterDeleteSt fe g d = (g, healAfterDelete fe g d) := by
  by_cases h : hasNode g d = true
  · simp [healAfterDeleteSt, healAfterDelete, hasNodeOp, inSourcesOp, outTargetsOp, h,
      healLoop_eq]
  · simp only [Bool.not_eq_true] at h
    simp [healAfterDeleteSt, healAfterDelete, hasNodeOp, h]

/-- The fold inside `getOldestNote` returns a candidate of minimal creation
time (the leftmost one, matching a stable ascending sort). -/
lemma foldl_oldest (g : ChainGraph) :
    ∀ (rest : List String) (p : String),
      (rest.foldl
          (fun best cur =>
            if nodeCreatedTime g cur < nodeCreatedTime g best then cur else best) p)
        ∈ p :: rest ∧
      ∀ q ∈ p :: rest,
        nodeCreatedTime g
            (rest.foldl
              (fun best cur =>
                if nodeCreatedTime g cur < nodeCreatedTime g best then cur else best) p)
          ≤ nodeCreatedTime g q := by
  intro rest
  induction rest with
  | nil =>
    intro p
    refine ⟨by simp, ?_⟩
    intro q hq
    rw [List.mem_singleton] at hq
    subst hq
    simp
  | cons r rs ih =>
    intro p
    by_cases hlt : nodeCreatedTime g r < nodeCreatedTime g p
    · simp only [List.foldl_cons]
      rw [if_pos hlt]
      obtain ⟨hmem, hmin⟩ := ih r
      refine ⟨?_, ?_⟩
      · rcases List.mem_cons.mp hmem with h | h
        · rw [h]; simp
        · exact List.mem_cons_of_mem _ (List.mem_cons_of_mem _ h)
      · intro q hq
        rcases List.mem_cons.mp hq with h | hq2
        · subst h
          exact le_trans (hmin r (List.mem_cons_self r rs)) (le_of_lt hlt)
        · exact hmin q hq2
    · simp only [List.foldl_cons]
      rw [if_neg hlt]
      obtain ⟨hmem, hmin⟩ := ih p
      refine ⟨?_, ?_⟩
      · rcases List.mem_cons.mp hmem with h | h
        · rw [h]; simp
        · exact List.mem_cons_of_mem _ (List.mem_cons_of_mem _ h)
      · intro q hq
        rcases List.mem_cons.mp hq with h | hq2
        · subst h
          exact hmin q (List.mem_cons_self q rs)
        · rcases List.mem_cons.mp hq2 with h | h
          · subst h
            exact le_trans (hmin p (List.mem_cons_self p rs)) (le_of_not_lt hlt)
          · exact hmin q (List.mem_cons_of_mem p h)

/-- Filtering a keyed map by its key commutes with mapping. -/
lemma filter_map_fst (f : String → String × List String) (hf : ∀ s, (f s).1 = s)
    (child : String) :
    ∀ l : List String,
      (l.map f).filter (fun r => r.1 == child) = (l.filter (fun s => s == child)).map f := by
  intro l
  induction l with
  | nil => simp
  | cons s ss ih =>
    simp only [List.map_cons, List.filter_cons, hf s]
    by_cases hs : (s == child) = true
    · simp [hs, ih]
    · simp only [Bool.not_eq_true] at hs
      simp [hs, ih]

/-- In a duplicate-free list, filtering for one contained element yields
exactly that element. -/
lemma filter_beq_singleton (child : String) :
    ∀ l : List String, l.Nodup → child ∈ l → l.filter (fun s => s == child) = [child] := by
  intro l
  induction l with
  | nil => intro _ h; simp at h
  | cons x xs ih =>
    intro hnd hmem
    rw [List.nodup_cons] at hnd
    rcases List.mem_cons.mp hmem with h | h
    · subst h
      have hnone : xs.filter (fun s => s == child) = [] := by
        rw [List.filter_eq_nil_iff]
        intro y hy
        simp only [beq_iff_eq]
        intro hyx
        exact hnd.1 (hyx ▸ hy)
      simp [List.filter_cons, hnone]
    · have hxc : (x == child) = false := by
        simp only [beq_eq_false_iff_ne, ne_eq]
        intro hx
        exact hnd.1 (hx ▸ h)
      simp [List.filter_cons, hxc, ih hnd.2 h]

/-- If the source-target pairs of an edge list are duplicate-free and every
edge targets the same node, the sources are duplicate-free. -/
lemma map_source_nodup_of_const_target (d : String) :
    ∀ (l : List ChainEdge),
      (l.map (fun e => (e.source, e.target))).Nodup →
      (∀ e ∈ l, e.target = d) →
      (l.map (fun e => e.source)).Nodup := by
  intro l
  induction l with
  | nil => simp
  | cons e es ih =>
    intro hnd htgt
    simp only [List.map_cons, List.nodup_cons] at hnd ⊢
    refine ⟨?_, ih hnd.2 (fun e2 he2 => htgt e2 (List.mem_cons_of_mem e he2))⟩
    intro hmem
    obtain ⟨e2, he2, hs⟩ := List.mem_map.mp hmem
    apply hnd.1
    refine List.mem_map.mpr ⟨e2, he2, ?_⟩
    have h1 : e2.target = d := htgt e2 (List.mem_cons_of_mem e he2)
    have h2 : e.target = d := htgt e (List.mem_cons_self e es)
    rw [hs, h1, h2]

/-- In a well-formed graph (no parallel edges), the children of a node are
pairwise distinct. -/
lemma childrenSources_nodup (g : ChainGraph) (hwf : wfGraph g) (d : String) :
    (childrenSources g d).Nodup := by
  apply map_source_nodup_of_const_target d
  · have hsub : List.Sublist (inEdges g d) g.edges := List.filter_sublist g.edges
    exact List.Nodup.sublist (List.Sublist.map (fun e => (e.source, e.target)) hsub) hwf
  · intro e he
    have := List.of_mem_filter he
    simpa [beq_iff_eq] using this

/-- The healed parent set of a child: membership-wise it is the child's
current parents minus the deleted note, union the deleted note's parents. -/
lemma newPrevLinks_toFinset (g : ChainGraph) (child d : String) (outs : List String) :
    (newPrevLinks g child d outs).toFinset =
      ((parentTargets g child).toFinset \ {d}) ∪ outs.toFinset := by
  ext x
  simp only [newPrevLinks, List.mem_toFinset, mem_dedupFirst, List.mem_append,
    List.mem_filter, Finset.mem_union, Finset.mem_sdiff, Finset.mem_singleton,
    decide_eq_true_eq, ne_eq]

/-- Specification of `getOldestNote`: when it yields a note, that note is one
of the candidates and no candidate has a smaller creation time. -/
lemma getOldestNote_spec (g : ChainGraph) :
    ∀ (paths : List String) (p : String), getOldestNote g paths = some p →
      p ∈ paths ∧ ∀ q ∈ paths, nodeCreatedTime g p ≤ nodeCreatedTime g q := by
  intro paths p h
  match paths with
  | [] => simp [getOldestNote] at h
  | [x] =>
    have hx : x = p := by simpa [getOldestNote] using h
    subst hx
    refine ⟨List.mem_singleton_self x, ?_⟩
    intro q hq
    rw [List.mem_singleton] at hq
    subst hq
    exact le_refl _
  | x :: y :: rest =>
    have hp : ((y :: rest).foldl
        (fun best cur =>
          if nodeCreatedTime g cur < nodeCreatedTime g best then cur else best) x) = p := by
      simpa [getOldestNote] using h
    obtain ⟨hmem, hmin⟩ := foldl_oldest g (y :: rest) x
    rw [hp] at hmem hmin
    exact ⟨hmem, hmin⟩

/-- Every note the backward step can produce is the target of some edge. -/
lemma backStep_mem_targets (g : ChainGraph) (c p : String) (h : backStep g c = some p) :
    p ∈ g.edges.map (fun e => e.target) := by
  have hp : p ∈ getPrevNotes g c :=
    List.mem_of_mem_head? (Option.mem_def.mpr h)
  rw [getPrevNotes] at hp
  by_cases hn : hasNode g c = true
  · rw [if_pos hn] at hp
    obtain ⟨e, he, htgt⟩ := List.mem_map.mp hp
    exact htgt ▸ List.mem_map_of_mem _ (List.mem_of_mem_filter he)
  · rw [if_neg hn] at hp
    simp at hp

/-- Every note the forward step can produce is the source of some edge. -/
lemma fwdStep_mem_sources (g : ChainGraph) (c p : String) (h : fwdStep g c = some p) :
    p ∈ g.edges.map (fun e => e.source) := by
  have hp : p ∈ getNextNotes g c :=
    List.mem_of_mem_head? (Option.mem_def.mpr h)
  rw [getNextNotes] at hp
  by_cases hn : hasNode g c = true
  · rw [if_pos hn] at hp
    obtain ⟨e, he, hsrc⟩ := List.mem_map.mp hp
    exact hsrc ▸ List.mem_map_of_mem _
      (List.mem_of_mem_filter (List.mem_of_mem_filter he))
  · rw [if_neg hn] at hp
    simp at hp

/-! ## Claim theorems -/

/-- C1: when a note `d` with a graph node is deleted, every child whose
parent reference points at `d` receives exactly one rewrite instruction, and
the rewritten parent set is the child's current parent set minus `d`, union
the parent set of `d`, deduplicated.  In particular, in the graph where X
and Y both reference the deleted node B and B references C, deleting B
emits rewrites for both X and Y, each pointing to C. -/
theorem healAfterDelete_rewrites_children :
    (∀ (fe : String → Bool) (g : ChainGraph) (d child : String),
      wfGraph g → hasNode g d = true → fe child = true →
      (∃ e ∈ g.edges, e.source = child ∧ e.target = d) →
      ∃ ps, (healAfterDelete fe g d).filter (fun r => r.1 == child) = [(child, ps)] ∧
        ps.toFinset =
          ((parentTargets g child).toFinset \ {d}) ∪ (parentTargets g d).toFinset ∧
        ps.Nodup) ∧
    healAfterDelete (fun _ => true) healExampleGraph "B" = [("X", ["C"]), ("Y", ["C"])] := by
  constructor
  · intro fe g d child hwf hnode hfe hedge
    obtain ⟨e, he, hsrc, htgt⟩ := hedge
    have hchild : child ∈ childrenSources g d := by
      rw [childrenSources]
      refine List.mem_map.mpr ⟨e, ?_, hsrc⟩
      rw [inEdges, List.mem_filter]
      exact ⟨he, by simp [htgt]⟩
    refine ⟨newPrevLinks g child d (parentTargets g d), ?_,
      newPrevLinks_toFinset g child d (parentTargets g d), dedupFirstAux_nodup _ _⟩
    rw [healAfterDelete, if_pos hnode]
    rw [filter_map_fst (fun src => (src, newPrevLinks g src d (parentTargets g d)))
      (fun _ => rfl) child ((childrenSources g d).filter fe)]
    have hsingle : ((childrenSources g d).filter fe).filter (fun s => s == child)
        = [child] := by
      apply filter_beq_singleton
      · exact List.Nodup.filter fe (childrenSources_nodup g hwf d)
      · rw [List.mem_filter]
        exact ⟨hchild, hfe⟩
    rw [hsingle]
    rfl
  · rfl

/-- C1 witness: the two-children healing example, instantiated for child X
of deleted node B. -/
theorem healAfterDelete_rewrites_children_witness :
    ∃ ps, (healAfterDelete (fun _ => true) healExampleGraph "B").filter
        (fun r => r.1 == "X") = [("X", ps)] ∧
      ps.toFinset = ((parentTargets healExampleGraph "X").toFinset \ {"B"})
        ∪ (parentTargets healExampleGraph "B").toFinset ∧
      ps.Nodup :=
  healAfterDelete_rewrites_children.1 (fun _ => true) healExampleGraph "B" "X"
    (by unfold wfGraph; decide) (by decide) rfl ⟨⟨"X", "B", "prev"⟩, by decide, rfl, rfl⟩

/-- C2 counterexample: in `branchGraph`, X and Y both reference parent P and
X was created first (time 1 < 2), but Y's edge was inserted first, so the
forward chain `getFullChainForward(P)` — the next-chain walk of
ChainDetector, which takes `nextNotes[0]` instead of the oldest candidate —
includes Y and not X, contradicting the claim as stated. -/
theorem nextChain_walk_oldest_cex :
    nodeCreatedTime branchGraph "X" < nodeCreatedTime branchGraph "Y" ∧
    "X" ∈ getNextNotes branchGraph "P" ∧ "Y" ∈ getNextNotes branchGraph "P" ∧
    getFullChainForward branchGraph "P" = ["P", "Y"] ∧
    "X" ∉ getFullChainForward branchGraph "P" := by
  decide

/-- C2 (amended): the forward walk that backs the rendered chain
(`buildRenderingChain`) does select the child with the smallest creation
timestamp at each step — `getOldestNote` always returns a candidate of
minimal creation time — and on `branchGraph` the rendering chain of P
therefore continues with the older child X, not Y.  The plain
`getFullChainForward` walk instead takes the first incoming edge
(see the counterexample). -/
theorem renderingChain_selects_oldest :
    (∀ (g : ChainGraph) (paths : List String) (p : String),
      getOldestNote g paths = some p →
      p ∈ paths ∧ ∀ q ∈ paths, nodeCreatedTime g p ≤ nodeCreatedTime g q) ∧
    buildRenderingChain branchGraph "P" =
      [⟨SegmentType.note, "P"⟩, ⟨SegmentType.note, "X"⟩,
        ⟨SegmentType.createButton, "X"⟩] := by
  exact ⟨getOldestNote_spec, by decide⟩

/-- C2 witness: on the branch at P in `branchGraph`, `getOldestNote`
selects X, which is a candidate and has minimal creation time. -/
theorem renderingChain_selects_oldest_witness :
    "X" ∈ ["Y", "X"] ∧
    ∀ q ∈ ["Y", "X"],
      nodeCreatedTime branchGraph "X" ≤ nodeCreatedTime branchGraph q :=
  renderingChain_selects_oldest.1 branchGraph ["Y", "X"] "X" (by decide)

/-- C3: both chain walks terminate on every graph, including graphs with
reference cycles: with the visited set as the termination mechanism, the
loops break within `edges.length + 1` iterations, so any extra fuel leaves
the result unchanged; on the cycle A→B→A the backward walk from A yields B
once and the forward walk likewise. -/
theorem chainWalks_terminate :
    (∀ (g : ChainGraph) (s : String) (k : Nat),
      getFullChainBackwardF g (g.edges.length + 1 + k) s = getFullChainBackward g s) ∧
    (∀ (g : ChainGraph) (s : String) (k : Nat),
      getFullChainForwardF g (g.edges.length + 1 + k) s = getFullChainForward g s) ∧
    getFullChainBackward cycleGraph "A" = ["B", "A"] ∧
    prevChainOf cycleGraph "A" = ["B"] ∧
    getFullChainForward cycleGraph "A" = ["A", "B"] := by
  refine ⟨?_, ?_, by decide, by decide, by decide⟩
  · intro g s k
    rw [getFullChainBackward, getFullChainBackwardF, getFullChainBackwardF]
    apply walkAux_stable (backStep g) (g.edges.map (fun e => e.target))
      (fun c p h => backStep_mem_targets g c p h)
    calc (g.edges.map (fun e => e.target)).countP (fun x => decide (x ∉ [s]))
        ≤ (g.edges.map (fun e => e.target)).length := List.countP_le_length _
      _ = g.edges.length := List.length_map _ _
      _ < g.edges.length + 1 := Nat.lt_succ_self _
  · intro g s k
    rw [getFullChainForward, getFullChainForwardF, getFullChainForwardF]
    congr 1
    apply walkAux_stable (fwdStep g) (g.edges.map (fun e => e.source))
      (fun c p h => fwdStep_mem_sources g c p h)
    calc (g.edges.map (fun e => e.source)).countP (fun x => decide (x ∉ [s]))
        ≤ (g.edges.map (fun e => e.source)).length := List.countP_le_length _
      _ = g.edges.length := List.length_map _ _
      _ < g.edges.length + 1 := Nat.lt_succ_self _

/-- C4: for every note `d` with a valid parent reference to `p` (the first
outgoing parent edge of `d` targets `p`, and the reference is not a
self-loop), the backward chain is nearest-first: `prevChainOf(d)[0] = p`.
The walk follows the first outgoing edge at each step (`prevNotes[0]`). -/
theorem prevChain_head_is_parent :
    ∀ (g : ChainGraph) (d p : String),
      (getPrevNotes g d).head? = some p → p ≠ d →
      (prevChainOf g d).head? = some p := by
  intro g d p hhead hne
  rw [prevChainOf, getFullChainBackward, getFullChainBackwardF]
  have hb : backStep g d = some p := hhead
  have h1 : walkAux (backStep g) (g.edges.length + 1) d [d] [d]
      = walkAux (backStep g) g.edges.length p (p :: [d]) (p :: [d]) := by
    simp [walkAux, hb, hne]
  rw [h1]
  obtain ⟨l, hl, -⟩ := walkAux_suffix (backStep g) g.edges.length p (p :: [d]) (p :: [d])
  rw [hl]
  have h2 : l ++ (p :: [d]) = (l ++ [p]) ++ [d] := by simp
  rw [h2, List.dropLast_concat, List.reverse_append]
  simp

/-- C4 witness: in the two-note chain D→P, the backward chain of D starts
with P. -/
theorem prevChain_head_is_parent_witness :
    (getPrevNotes pairGraph "D").head? = some "P" ∧ "P" ≠ "D" ∧
    (prevChainOf pairGraph "D").head? = some "P" :=
  ⟨by decide, by decide, prevChain_head_is_parent pairGraph "D" "P" (by decide) (by decide)⟩

/-- C5: for a deleted note with a graph node, the healer returns one
`(documentId, newParentIds)` pair per child of the deleted note (in the
model, per child whose file still exists), and it performs no rewrite
itself: the state-threaded healer hands the graph back unchanged, the
frontmatter write-back being the emitted instructions for the external
collaborator. -/
theorem heal_contract_emits_without_rewrite :
    ∀ (fe : String → Bool) (g : ChainGraph) (d : String),
      hasNode g d = true →
      (healAfterDelete fe g d).map Prod.fst = (childrenSources g d).filter fe ∧
      healAfterDeleteSt fe g d = (g, healAfterDelete fe g d) := by
  intro fe g d h
  constructor
  · simp [healAfterDelete, h, Function.comp_def]
  · exact healAfterDeleteSt_eq fe g d

/-- C5 witness: the healing example, deleting B. -/
theorem heal_contract_emits_without_rewrite_witness :
    (healAfterDelete (fun _ => true) healExampleGraph "B").map Prod.fst
        = (childrenSources healExampleGraph "B").filter (fun _ => true) ∧
    healAfterDeleteSt (fun _ => true) healExampleGraph "B"
        = (healExampleGraph, healAfterDelete (fun _ => true) healExampleGraph "B") :=
  heal_contract_emits_without_rewrite (fun _ => true) healExampleGraph "B" (by decide)

/-- C6: for every graph and focal note, the complete chain is the reversed
backward chain, then the focal note exactly once, then the forward chain. -/
theorem completeChain_decomposition :
    ∀ (g : ChainGraph) (s : String),
      getCompleteChain g s = (prevChainOf g s).reverse ++ s :: nextChainOf g s ∧
      (getCompleteChain g s).count s = 1 := by
  intro g s
  obtain ⟨lb, hlb, hvb⟩ :=
    walkAux_suffix (backStep g) (g.edges.length + 1) s [s] [s]
  obtain ⟨lf, hlf, hvf⟩ :=
    walkAux_suffix (fwdStep g) (g.edges.length + 1) s [s] [s]
  have hsb : s ∉ lb := fun hmem => (hvb s hmem) (List.mem_singleton_self s)
  have hsf : s ∉ lf := fun hmem => (hvf s hmem) (List.mem_singleton_self s)
  have hB : getFullChainBackward g s = lb ++ [s] := by
    rw [getFullChainBackward, getFullChainBackwardF, hlb]
  have hF : getFullChainForward g s = s :: lf.reverse := by
    rw [getFullChainForward, getFullChainForwardF, hlf]
    simp
  constructor
  · rw [getCompleteChain, prevChainOf, nextChainOf, hB, hF, List.dropLast_concat]
    simp
  · rw [getCompleteChain, hB, hF, List.dropLast_concat]
    rw [List.count_append, List.count_cons_self]
    have h0b : lb.count s = 0 := List.count_eq_zero.mpr hsb
    have h0f : lf.reverse.count s = 0 := by
      rw [List.count_eq_zero]
      intro hmem
      exact hsf (List.mem_reverse.mp hmem)
    omega

/-- C7: deleting an identifier with no node in the graph is a no-op for the
healer, not an error: no rewrite instructions are emitted and the graph is
unchanged (the method returns right after the failed `hasNode` check). -/
theorem heal_missing_node_noop :
    ∀ (fe : String → Bool) (g : ChainGraph) (d : String),
      hasNode g d = false →
      healAfterDelete fe g d = [] ∧ healAfterDeleteSt fe g d = (g, []) := by
  intro fe g d h
  constructor
  · rw [healAfterDelete, if_neg (by simp [h])]
  · rw [healAfterDeleteSt]
    simp [hasNodeOp, h]

/-- C7 witness: a double-delete notification for "Z", which has no node in
the healing example graph. -/
theorem heal_missing_node_noop_witness :
    hasNode healExampleGraph "Z" = false ∧
    healAfterDelete (fun _ => true) healExampleGraph "Z" = [] ∧
    healAfterDeleteSt (fun _ => true) healExampleGraph "Z" = (healExampleGraph, []) :=
  ⟨by decide, heal_missing_node_noop (fun _ => true) healExampleGraph "Z" (by decide)⟩

/-- C8: a note that references itself as its own parent never appears in its
own backward chain or forward chain: both walks seed the visited set with
the start note, so it is never re-appended. -/
theorem selfLoop_absent_from_own_chains :
    ∀ (g : ChainGraph) (d : String),
      (∃ e ∈ g.edges, e.source = d ∧ e.target = d) →
      d ∉ prevChainOf g d ∧ d ∉ nextChainOf g d := by
  intro g d hloop
  obtain ⟨lb, hlb, hvb⟩ :=
    walkAux_suffix (backStep g) (g.edges.length + 1) d [d] [d]
  obtain ⟨lf, hlf, hvf⟩ :=
    walkAux_suffix (fwdStep g) (g.edges.length + 1) d [d] [d]
  constructor
  · rw [prevChainOf, getFullChainBackward, getFullChainBackwardF, hlb,
      List.dropLast_concat]
    intro hmem
    exact (hvb d (List.mem_reverse.mp hmem)) (List.mem_singleton_self d)
  · rw [nextChainOf, getFullChainForward, getFullChainForwardF, hlf]
    have h1 : (lf ++ [d]).reverse = d :: lf.reverse := by simp
    rw [h1]
    simp only [List.drop_succ_cons, List.drop_zero]
    intro hmem
    exact (hvf d (List.mem_reverse.mp hmem)) (List.mem_singleton_self d)

/-- C8 witness: the one-note graph whose note S references itself. -/
theorem selfLoop_absent_from_own_chains_witness :
    "S" ∉ prevChainOf selfLoopGraph "S" ∧ "S" ∉ nextChainOf selfLoopGraph "S" :=
  selfLoop_absent_from_own_chains selfLoopGraph "S"
    ⟨⟨"S", "S", "prev"⟩, by decide, rfl, rfl⟩

/-- C9: `healAfterDelete` never mutates the graph — every graph operation it
performs is a read, so threading the graph through the call leaves it
identical — and the deleted node is removed only afterward by the
coordinating `handleDelete`, which first lets the healer compute its
instructions on the intact graph and then calls the store's node removal. -/
theorem healer_preserves_graph_frame :
    ∀ (fe : String → Bool) (g : ChainGraph) (d : String),
      (healAfterDeleteSt fe g d).1 = g ∧
      (healAfterDeleteSt fe g d).2 = healAfterDelete fe g d ∧
      handleDelete fe g d = (removeNode g d, healAfterDelete fe g d) := by
  intro fe g d
  have h := healAfterDeleteSt_eq fe g d
  refine ⟨by rw [h], by rw [h], ?_⟩
  rw [handleDelete, h]

/-- C10: for an identifier with no node in the graph, the chain query
primitives return negative or empty results instead of raising:
`isInChain` is false and `getPrevNotes` / `getNextNotes` are empty. -/
theorem chain_queries_missing_node :
    ∀ (g : ChainGraph) (p : String),
      hasNode g p = false →
      isInChain g p = false ∧ getPrevNotes g p = [] ∧ getNextNotes g p = [] := by
  intro g p h
  refine ⟨?_, ?_, ?_⟩ <;> simp [isInChain, getPrevNotes, getNextNotes, h]

/-- C10 witness: the unknown identifier "Z" against the healing example
graph. -/
theorem chain_queries_missing_node_witness :
    hasNode healExampleGraph "Z" = false ∧
    isInChain healExampleGraph "Z" = false ∧
    getPrevNotes healExampleGraph "Z" = [] ∧ getNextNotes healExampleGraph "Z" = [] :=
  ⟨by decide, chain_queries_missing_node healExampleGraph "Z" (by decide)⟩
